import Mathlib

/-!
Verification of the Flax NNX filter / state-partitioning design.

The data model follows the documentation notebook: a flattened state is an
ordered list of (path, value) pairs, a predicate is a boolean function over
such pairs, filter literals compile to predicates, and the partitioner
assigns each pair to the first group whose predicate matches.
-/

namespace FlaxFilterlib

/-- Keys are hashable/comparable identifiers; the examples use string field
names, so we fix keys to strings. -/
abbrev Key := String

/-- A path (Location) is an ordered sequence of keys addressing a value in a
nested structure. -/
abbrev Path := List Key

/-- An entry (value) found at a path.  `cls` is the value's own runtime
class (its kind, supporting a nominal subtype hierarchy via an abstract
subclass test), `typeAttr` models the optional Python attribute named type
(present on VariableState, absent elsewhere), and `tagAttr` models the
optional string tag attribute used by RngKey/RngCount. -/
structure Entry (Kind : Type) where
  cls : Kind
  typeAttr : Option Kind
  tagAttr : Option String
  deriving DecidableEq

/-- A predicate, as in the notebook's Filter protocol:
(path : tuple[Key, ...], value : Any) -> bool. -/
abbrev Predicate (Kind : Type) := Path → Entry Kind → Bool

section Model

variable {Kind : Type}

/-- The OfType / is_param predicate, from the source notebook:
isinstance(value, K) or (hasattr(value, type) and issubclass(value.type, K)).
The abstract function `issub a b` models issubclass(a, b) (and, applied to a
value's own class, isinstance). -/
def OfType (issub : Kind → Kind → Bool) (K : Kind) : Predicate Kind :=
  fun _ value =>
    issub value.cls K ||
      (match value.typeAttr with
       | some t => issub t K
       | none => false)

/-- Modelled from the spec: the WithTag callable, matching values that have a
string tag attribute equal to the given tag (the implementation is in the
host framework, only its contract is documented). -/
def WithTag (tag : String) : Predicate Kind :=
  fun _ value =>
    match value.tagAttr with
    | some t => t == tag
    | none => false

/-- Modelled from the spec: the filter-literal DSL grammar.  `ofType` is a
type literal, `withTag` a string literal, `everything` the match-all
sentinel (ellipsis / True), `nothing` the match-none sentinel (None /
False), `anyOf` a list/tuple of literals, plus the explicit All / Not /
PathContains combinators.  `unrecognized` stands for a caller value that
matches none of the recognized grammar forms. -/
inductive Literal (Kind : Type) where
  | ofType (K : Kind)
  | withTag (tag : String)
  | everything
  | nothing
  | anyOf (ls : List (Literal Kind))
  | allOf (ls : List (Literal Kind))
  | notOf (l : Literal Kind)
  | pathContains (k : Key)
  | unrecognized

/-- Modelled from the spec: the compile-time error of the filter
compiler. -/
inductive FilterError where
  | invalidFilterLiteral
  deriving DecidableEq

mutual

/-- Modelled from the spec: to_predicate, the compiler from filter literals
to predicates (the implementation lives in the host framework; the notebook
documents each literal form's compiled semantics).  An unrecognized literal
form fails with InvalidFilterLiteral. -/
def to_predicate (issub : Kind → Kind → Bool) : Literal Kind → Except FilterError (Predicate Kind)
  | .ofType K => .ok (OfType issub K)
  | .withTag tag => .ok (WithTag tag)
  | .everything => .ok (fun _ _ => true)
  | .nothing => .ok (fun _ _ => false)
  | .anyOf ls =>
    match to_predicates issub ls with
    | .ok ps => .ok (fun path value => ps.any (fun q => q path value))
    | .error e => .error e
  | .allOf ls =>
    match to_predicates issub ls with
    | .ok ps => .ok (fun path value => ps.all (fun q => q path value))
    | .error e => .error e
  | .notOf l =>
    match to_predicate issub l with
    | .ok q => .ok (fun path value => !(q path value))
    | .error e => .error e
  | .pathContains k => .ok (fun path _ => path.contains k)
  | .unrecognized => .error .invalidFilterLiteral

/-- Modelled from the spec: compile a list of literals left to right,
stopping at the first error (the list comprehension in split's first
line). -/
def to_predicates (issub : Kind → Kind → Bool) : List (Literal Kind) → Except FilterError (List (Predicate Kind))
  | [] => .ok []
  | l :: ls =>
    match to_predicate issub l with
    | .ok p =>
      match to_predicates issub ls with
      | .ok ps => .ok (p :: ps)
      | .error e => .error e
    | .error e => .error e

end

/-- The errors split can raise: InvalidFilterLiteral from compilation, or
the ValueError raised when no filter matched a (path, value) pair — the
spec's UnmatchedEntry, carrying the offending path and value exactly as the
source's error message does. -/
inductive SplitError (Kind : Type) where
  | invalidFilterLiteral
  | unmatchedEntry (path : Path) (value : Entry Kind)
  deriving DecidableEq

/-- Index of the first predicate (in list order) returning true on the
pair, None when none does: the inner for/enumerate/break loop of split. -/
def firstMatchIdx (preds : List (Predicate Kind)) (path : Path) (value : Entry Kind) : Option Nat :=
  match preds with
  | [] => none
  | q :: rest =>
    if q path value then some 0
    else (firstMatchIdx rest path value).map (· + 1)

/-- Append an element to the i-th inner list: flat_states[i][path] = value. -/
def appendAt : List (List α) → Nat → α → List (List α)
  | [], _, _ => []
  | g :: gs, 0, x => (g ++ [x]) :: gs
  | g :: gs, i + 1, x => g :: appendAt gs i x

/-- The main loop of split from the source: for each (path, value) pair in
order, assign it to the first group whose predicate returns true, or raise
when no filter matched. -/
def splitLoop (preds : List (Predicate Kind)) :
    List (Path × Entry Kind) → List (List (Path × Entry Kind)) →
      Except (SplitError Kind) (List (List (Path × Entry Kind)))
  | [], acc => .ok acc
  | (path, value) :: rest, acc =>
    match firstMatchIdx preds path value with
    | some i => splitLoop preds rest (appendAt acc i (path, value))
    | none => .error (.unmatchedEntry path value)

/-- split from the source notebook, over the already-flattened state (graph
flattening is an external collaborator): compile every filter to a
predicate, initialize one empty group per predicate, then run the
first-match-wins loop. -/
def split (issub : Kind → Kind → Bool) (filters : List (Literal Kind))
    (state : List (Path × Entry Kind)) :
    Except (SplitError Kind) (List (List (Path × Entry Kind))) :=
  match to_predicates issub filters with
  | .ok preds => splitLoop preds state (preds.map (fun _ => []))
  | .error _ => .error .invalidFilterLiteral

/-- Specification-level description of the groups: the i-th group is the
order-preserving sublist of the state whose pairs have first matching
predicate i. -/
def groupsOf (preds : List (Predicate Kind)) (state : List (Path × Entry Kind)) :
    List (List (Path × Entry Kind)) :=
  (List.range preds.length).map
    (fun i => state.filter (fun pv => firstMatchIdx preds pv.1 pv.2 == some i))

/-- One-hot list of groups: group i holds just x, every other group is
empty.  Auxiliary for describing a single step of the split loop. -/
def oneHot : Nat → Nat → α → List (List α)
  | 0, _, _ => []
  | n + 1, 0, x => [x] :: List.replicate n []
  | n + 1, i + 1, x => [] :: oneHot n i x

end Model

section ConcreteExamples

/-- A concrete kind hierarchy for the notebook's running example: kind 0 is
Param, kind 1 is SpecialParam (deriving from Param), kind 2 is
VariableState (whose instances carry a type attribute), kind 3 is an
unrelated kind such as BatchStat.  issubD a b holds iff a equals b or a is
SpecialParam and b is Param. -/
def issubD : Nat → Nat → Bool := fun a b => a == b || (a == 1 && b == 0)

/-- An entry that is a direct Param instance. -/
def entryP : Entry Nat := ⟨0, none, none⟩

/-- An entry that is a direct SpecialParam instance. -/
def entrySP : Entry Nat := ⟨1, none, none⟩

/-- A VariableState entry exposing a type attribute equal to SpecialParam. -/
def entryV : Entry Nat := ⟨2, some 1, none⟩

/-- An entry of an unrelated kind, matching neither Param nor SpecialParam. -/
def entryB : Entry Nat := ⟨3, none, none⟩

/-- The filters of the Foo example: Param first, then SpecialParam. -/
def filtersD : List (Literal Nat) := [Literal.ofType 0, Literal.ofType 1]

/-- The flat state of Bar: field a is a Param, field b a SpecialParam. -/
def stateD : List (Path × Entry Nat) := [(["a"], entryP), (["b"], entrySP)]

/-- The predicates filtersD compiles to. -/
def predsD : List (Predicate Nat) := [OfType issubD 0, OfType issubD 1]

/-- The groups split returns on stateD with filtersD: first-match-wins puts
both entries in the Param group. -/
def gsD : List (List (Path × Entry Nat)) := [[(["a"], entryP), (["b"], entrySP)], []]

end ConcreteExamples

section Lemmas

variable {Kind : Type}

theorem firstMatchIdx_eq_none_iff (preds : List (Predicate Kind)) (path : Path) (value : Entry Kind) :
    firstMatchIdx preds path value = none ↔ ∀ q ∈ preds, q path value = false := by
  induction preds with
  | nil => simp [firstMatchIdx]
  | cons q rest ih =>
    rw [firstMatchIdx]
    by_cases hq : q path value = true
    · simp [hq]
    · simp only [Bool.not_eq_true] at hq
      simp [hq, ih]

theorem firstMatchIdx_spec (preds : List (Predicate Kind)) (path : Path) (value : Entry Kind) :
    ∀ i : Nat, firstMatchIdx preds path value = some i ↔
      ∃ h : i < preds.length, (preds.get ⟨i, h⟩) path value = true ∧
        ∀ q ∈ preds.take i, q path value = false := by
  induction preds with
  | nil => intro i; simp [firstMatchIdx]
  | cons q rest ih =>
    intro i
    rw [firstMatchIdx]
    by_cases hq : q path value = true
    · rw [if_pos hq]
      cases i with
      | zero => simp [hq]
      | succ k =>
        constructor
        · intro h; simp at h
        · rintro ⟨h, _, hall⟩
          have h0 : q ∈ (q :: rest).take (k + 1) := by
            simp [List.take_succ_cons]
          have := hall q h0
          rw [this] at hq
          simp at hq
    · rw [if_neg hq]
      simp only [Bool.not_eq_true] at hq
      cases i with
      | zero =>
        constructor
        · intro h
          cases hr : firstMatchIdx rest path value <;> rw [hr] at h <;> simp at h
        · rintro ⟨h, hget, _⟩
          simp at hget
          rw [hget] at hq
          simp at hq
      | succ k =>
        have hmap : ((firstMatchIdx rest path value).map (· + 1) = some (k + 1)) ↔
            firstMatchIdx rest path value = some k := by
          cases hr : firstMatchIdx rest path value <;> simp
        rw [hmap, ih k]
        constructor
        · rintro ⟨h, hget, hall⟩
          refine ⟨by simpa using h, by simpa using hget, ?_⟩
          intro q' hq'
          rw [List.take_succ_cons, List.mem_cons] at hq'
          rcases hq' with rfl | hq'
          · exact hq
          · exact hall q' hq'
        · rintro ⟨h, hget, hall⟩
          refine ⟨by simpa using h, by simpa using hget, ?_⟩
          intro q' hq'
          refine hall q' ?_
          rw [List.take_succ_cons, List.mem_cons]
          exact Or.inr hq'

theorem firstMatchIdx_lt_length {preds : List (Predicate Kind)} {path : Path} {value : Entry Kind} {i : Nat}
    (h : firstMatchIdx preds path value = some i) : i < preds.length := by
  rcases (firstMatchIdx_spec preds path value i).1 h with ⟨hi, _⟩
  exact hi

theorem firstMatchIdx_isSome_iff (preds : List (Predicate Kind)) (path : Path) (value : Entry Kind) :
    (firstMatchIdx preds path value).isSome = true ↔ ∃ q ∈ preds, q path value = true := by
  constructor
  · intro h
    rcases Option.isSome_iff_exists.1 h with ⟨i, hi⟩
    rcases (firstMatchIdx_spec preds path value i).1 hi with ⟨hlt, hget, _⟩
    exact ⟨preds.get ⟨i, hlt⟩, List.get_mem preds i hlt, hget⟩
  · rintro ⟨q, hqmem, hqt⟩
    cases hr : firstMatchIdx preds path value with
    | some i => simp
    | none =>
      rw [firstMatchIdx_eq_none_iff] at hr
      rw [hr q hqmem] at hqt
      simp at hqt

theorem appendAt_length (gs : List (List α)) (i : Nat) (x : α) :
    (appendAt gs i x).length = gs.length := by
  induction gs generalizing i with
  | nil => rfl
  | cons g gs ih => cases i <;> simp [appendAt, ih]

theorem zipWith_append_replicate_right (acc : List (List α)) :
    List.zipWith (· ++ ·) acc (List.replicate acc.length ([] : List α)) = acc := by
  induction acc with
  | nil => rfl
  | cons g gs ih => simp [List.replicate_succ, ih]

theorem zipWith_append_replicate_left (m : List (List α)) :
    List.zipWith (· ++ ·) (List.replicate m.length ([] : List α)) m = m := by
  induction m with
  | nil => rfl
  | cons g gs ih => simp [List.replicate_succ, ih]

theorem zipWith_append_assoc (a : List (List α)) :
    ∀ b c, List.zipWith (· ++ ·) (List.zipWith (· ++ ·) a b) c
      = List.zipWith (· ++ ·) a (List.zipWith (· ++ ·) b c) := by
  induction a with
  | nil => intro b c; rfl
  | cons x a ih =>
    intro b c
    cases b with
    | nil => rfl
    | cons y b =>
      cases c with
      | nil => rfl
      | cons z c => simp [List.zipWith_cons_cons, List.append_assoc, ih]

theorem appendAt_eq_zipWith (acc : List (List α)) :
    ∀ (i : Nat) (x : α), i < acc.length →
      appendAt acc i x = List.zipWith (· ++ ·) acc (oneHot acc.length i x) := by
  induction acc with
  | nil => intro i x h; simp at h
  | cons g gs ih =>
    intro i x h
    cases i with
    | zero =>
      show (g ++ [x]) :: gs = _
      rw [List.length_cons, oneHot, List.zipWith_cons_cons, zipWith_append_replicate_right]
    | succ k =>
      show g :: appendAt gs k x = _
      rw [List.length_cons, oneHot, List.zipWith_cons_cons, List.append_nil,
        ih k x (by simpa using h)]

theorem oneHot_eq_map (n : Nat) : ∀ (i : Nat) (x : α),
    oneHot n i x = (List.range n).map (fun j => if j = i then [x] else []) := by
  induction n with
  | zero => intro i x; rfl
  | succ m ih =>
    intro i x
    rw [List.range_succ_eq_map, List.map_cons, List.map_map]
    cases i with
    | zero =>
      rw [oneHot, if_pos rfl]
      congr 1
      rw [show ((fun j => if j = 0 then [x] else []) ∘ Nat.succ)
          = (fun j : Nat => ([] : List α)) from funext (fun j => by simp)]
      rw [List.map_const', List.length_range]
    | succ k =>
      rw [oneHot, if_neg (Nat.succ_ne_zero k).symm, ih k x]
      congr 1
      apply List.map_congr_left
      intro j _
      simp [Function.comp, Nat.succ_inj]

theorem zipWith_map_same (f : List γ → List γ → List γ) (g h : ι → List γ) :
    ∀ l : List ι, List.zipWith f (l.map g) (l.map h) = l.map (fun j => f (g j) (h j)) := by
  intro l
  induction l with
  | nil => rfl
  | cons a l ih => simp [ih]

theorem length_groupsOf (preds : List (Predicate Kind)) (state : List (Path × Entry Kind)) :
    (groupsOf preds state).length = preds.length := by
  simp [groupsOf]

theorem groupsOf_nil (preds : List (Predicate Kind)) :
    groupsOf preds ([] : List (Path × Entry Kind)) = List.replicate preds.length [] := by
  unfold groupsOf
  rw [show (fun i => List.filter (fun pv => firstMatchIdx preds pv.1 pv.2 == some i) [])
      = (fun _ : Nat => ([] : List (Path × Entry Kind))) from funext (fun i => by simp)]
  rw [List.map_const', List.length_range]

theorem groupsOf_cons_matched {preds : List (Predicate Kind)} {path : Path}
    {value : Entry Kind} {i : Nat} (hm : firstMatchIdx preds path value = some i)
    (rest : List (Path × Entry Kind)) :
    groupsOf preds ((path, value) :: rest) =
      List.zipWith (· ++ ·) (oneHot preds.length i (path, value)) (groupsOf preds rest) := by
  rw [oneHot_eq_map]
  unfold groupsOf
  rw [zipWith_map_same]
  apply List.map_congr_left
  intro j _
  rw [List.filter_cons]
  by_cases hji : j = i
  · subst hji
    simp [hm]
  · have hij : i ≠ j := Ne.symm hji
    simp [hm, hij, hji]

theorem splitLoop_ok_of_matched (preds : List (Predicate Kind)) :
    ∀ (state : List (Path × Entry Kind)) (acc : List (List (Path × Entry Kind))),
      (∀ pv ∈ state, (firstMatchIdx preds pv.1 pv.2).isSome = true) →
      acc.length = preds.length →
      splitLoop preds state acc = .ok (List.zipWith (· ++ ·) acc (groupsOf preds state))
  | [], acc, _, hlen => by
    rw [groupsOf_nil, ← hlen, zipWith_append_replicate_right]
    rfl
  | (path, value) :: rest, acc, hmat, hlen => by
    have hhead : (firstMatchIdx preds path value).isSome = true :=
      hmat (path, value) (List.mem_cons_self _ _)
    rcases Option.isSome_iff_exists.1 hhead with ⟨i, hi⟩
    have hilt : i < acc.length := hlen ▸ firstMatchIdx_lt_length hi
    have hrec := splitLoop_ok_of_matched preds rest (appendAt acc i (path, value))
      (fun pv hpv => hmat pv (List.mem_cons_of_mem _ hpv))
      (by rw [appendAt_length]; exact hlen)
    simp only [splitLoop, hi]
    rw [hrec, groupsOf_cons_matched hi rest]
    show Except.ok _ = Except.ok _
    congr 1
    rw [appendAt_eq_zipWith acc i _ hilt, zipWith_append_assoc, hlen]

theorem splitLoop_ok_imp_matched (preds : List (Predicate Kind)) :
    ∀ (state : List (Path × Entry Kind)) (acc gs : List (List (Path × Entry Kind))),
      splitLoop preds state acc = .ok gs →
      ∀ pv ∈ state, (firstMatchIdx preds pv.1 pv.2).isSome = true
  | [], _, _, _ => by intro pv hpv; cases hpv
  | (path, value) :: rest, acc, gs, h => by
    intro pv hpv
    rcases List.mem_cons.1 hpv with rfl | hpv'
    · simp only [splitLoop] at h
      cases hm : firstMatchIdx preds path value with
      | some i => simp [hm]
      | none => simp [hm] at h
    · simp only [splitLoop] at h
      cases hm : firstMatchIdx preds path value with
      | some i =>
        rw [hm] at h
        exact splitLoop_ok_imp_matched preds rest (appendAt acc i (path, value)) gs h pv hpv'
      | none => simp [hm] at h

theorem splitLoop_err_of_unmatched (preds : List (Predicate Kind)) :
    ∀ (state : List (Path × Entry Kind)) (acc : List (List (Path × Entry Kind))),
      (∃ pv ∈ state, firstMatchIdx preds pv.1 pv.2 = none) →
      ∃ pre p₀ v₀ post, state = pre ++ (p₀, v₀) :: post ∧
        (∀ pv ∈ pre, (firstMatchIdx preds pv.1 pv.2).isSome = true) ∧
        firstMatchIdx preds p₀ v₀ = none ∧
        splitLoop preds state acc = .error (.unmatchedEntry p₀ v₀)
  | [], _, h => by
    rcases h with ⟨pv, hpv, _⟩
    cases hpv
  | (path, value) :: rest, acc, h => by
    cases hm : firstMatchIdx preds path value with
    | none =>
      refine ⟨[], path, value, rest, by simp, by simp, hm, ?_⟩
      simp only [splitLoop, hm]
    | some i =>
      have hrest : ∃ pv ∈ rest, firstMatchIdx preds pv.1 pv.2 = none := by
        rcases h with ⟨pv, hpv, hnone⟩
        rcases List.mem_cons.1 hpv with rfl | hpv'
        · rw [hm] at hnone; cases hnone
        · exact ⟨pv, hpv', hnone⟩
      rcases splitLoop_err_of_unmatched preds rest (appendAt acc i (path, value)) hrest with
        ⟨pre, p₀, v₀, post, heq, hpre, hnone, hrun⟩
      refine ⟨(path, value) :: pre, p₀, v₀, post, by rw [heq]; rfl, ?_, hnone, ?_⟩
      · intro pv hpv
        rcases List.mem_cons.1 hpv with rfl | hpv'
        · simp [hm]
        · exact hpre pv hpv'
      · simp only [splitLoop, hm]
        exact hrun

theorem get_groupsOf {preds : List (Predicate Kind)} {state : List (Path × Entry Kind)}
    {j : Nat} (hj : j < (groupsOf preds state).length) :
    (groupsOf preds state).get ⟨j, hj⟩
      = state.filter (fun pv => firstMatchIdx preds pv.1 pv.2 == some j) := by
  unfold groupsOf at hj ⊢
  rw [List.get_eq_getElem]
  simp [List.getElem_map, List.getElem_range]

theorem mem_groupsOf {preds : List (Predicate Kind)} {state : List (Path × Entry Kind)}
    {j : Nat} (hj : j < (groupsOf preds state).length) (pv : Path × Entry Kind) :
    pv ∈ (groupsOf preds state).get ⟨j, hj⟩ ↔
      pv ∈ state ∧ firstMatchIdx preds pv.1 pv.2 = some j := by
  rw [get_groupsOf hj, List.mem_filter]
  simp

theorem keys_nodup_unique {state : List (Path × Entry Kind)}
    (h : (state.map Prod.fst).Nodup) :
    ∀ {l : Path} {e e' : Entry Kind}, (l, e) ∈ state → (l, e') ∈ state → e = e' := by
  induction state with
  | nil => intro l e e' h1 _; cases h1
  | cons pv rest ih =>
    rw [List.map_cons, List.nodup_cons] at h
    intro l e e' h1 h2
    rcases List.mem_cons.1 h1 with h1e | h1r
    · rcases List.mem_cons.1 h2 with h2e | h2r
      · rw [← h1e] at h2e
        injection h2e with _ hv
        exact hv.symm
      · exfalso
        apply h.1
        rw [← h1e]
        show l ∈ _
        exact List.mem_map_of_mem Prod.fst h2r
    · rcases List.mem_cons.1 h2 with h2e | h2r
      · exfalso
        apply h.1
        rw [← h2e]
        show l ∈ _
        exact List.mem_map_of_mem Prod.fst h1r
      · exact ih h.2 h1r h2r

theorem groupsOf_loc_unique {preds : List (Predicate Kind)} {state : List (Path × Entry Kind)}
    (hnodup : (state.map Prod.fst).Nodup) {j k : Nat}
    (hj : j < (groupsOf preds state).length) (hk : k < (groupsOf preds state).length)
    {l : Path}
    (h1 : l ∈ ((groupsOf preds state).get ⟨j, hj⟩).map Prod.fst)
    (h2 : l ∈ ((groupsOf preds state).get ⟨k, hk⟩).map Prod.fst) : j = k := by
  rcases List.mem_map.1 h1 with ⟨⟨p1, v1⟩, hmem1, hfst1⟩
  rcases List.mem_map.1 h2 with ⟨⟨p2, v2⟩, hmem2, hfst2⟩
  rcases (mem_groupsOf hj _).1 hmem1 with ⟨hs1, hm1⟩
  rcases (mem_groupsOf hk _).1 hmem2 with ⟨hs2, hm2⟩
  have hp1 : p1 = l := hfst1
  have hp2 : p2 = l := hfst2
  have hs1x : (l, v1) ∈ state := by rw [← hp1]; exact hs1
  have hs2x : (l, v2) ∈ state := by rw [← hp2]; exact hs2
  have hveq : v1 = v2 := keys_nodup_unique hnodup hs1x hs2x
  have hm1x : firstMatchIdx preds l v1 = some j := by rw [← hp1]; exact hm1
  have hm2x : firstMatchIdx preds l v1 = some k := by rw [← hp2, hveq]; exact hm2
  rw [hm1x] at hm2x
  exact Option.some.inj hm2x

theorem split_ok_imp_compiled {issub : Kind → Kind → Bool} {filters : List (Literal Kind)}
    {state : List (Path × Entry Kind)} {gs : List (List (Path × Entry Kind))}
    (hs : split issub filters state = .ok gs) :
    ∃ preds, to_predicates issub filters = .ok preds := by
  cases hc : to_predicates issub filters with
  | ok preds => exact ⟨preds, rfl⟩
  | error e =>
    simp only [split, hc] at hs
    exact Except.noConfusion hs

theorem split_ok_groups {issub : Kind → Kind → Bool} {filters : List (Literal Kind)}
    {state : List (Path × Entry Kind)} {preds : List (Predicate Kind)}
    {gs : List (List (Path × Entry Kind))}
    (hc : to_predicates issub filters = .ok preds)
    (hs : split issub filters state = .ok gs) :
    gs = groupsOf preds state := by
  simp only [split, hc] at hs
  have hmat := splitLoop_ok_imp_matched preds state _ gs hs
  rw [splitLoop_ok_of_matched preds state (preds.map fun _ => []) hmat (by simp)] at hs
  have hacc : (preds.map fun _ => ([] : List (Path × Entry Kind)))
      = List.replicate (groupsOf preds state).length [] := by
    rw [length_groupsOf, List.map_const']
  rw [hacc, zipWith_append_replicate_left] at hs
  exact (Except.ok.inj hs).symm

theorem split_ok_of_matched {issub : Kind → Kind → Bool} {filters : List (Literal Kind)}
    {state : List (Path × Entry Kind)} {preds : List (Predicate Kind)}
    (hc : to_predicates issub filters = .ok preds)
    (hmat : ∀ pv ∈ state, (firstMatchIdx preds pv.1 pv.2).isSome = true) :
    split issub filters state = .ok (groupsOf preds state) := by
  simp only [split, hc]
  rw [splitLoop_ok_of_matched preds state _ hmat (by simp)]
  have hacc : (preds.map fun _ => ([] : List (Path × Entry Kind)))
      = List.replicate (groupsOf preds state).length [] := by
    rw [length_groupsOf, List.map_const']
  rw [hacc, zipWith_append_replicate_left]

theorem to_predicates_error_of_unrecognized {issub : Kind → Kind → Bool}
    {filters : List (Literal Kind)} (h : Literal.unrecognized ∈ filters) :
    to_predicates issub filters = .error .invalidFilterLiteral := by
  induction filters with
  | nil => cases h
  | cons l ls ih =>
    rcases List.mem_cons.1 h with rfl | h'
    · rfl
    · cases hl : to_predicate issub l with
      | ok p => simp only [to_predicates, hl, ih h']
      | error e => cases e; simp only [to_predicates, hl]

theorem to_predicates_ok_spec (issub : Kind → Kind → Bool) :
    ∀ (ls : List (Literal Kind)) (ps : List (Predicate Kind)),
      to_predicates issub ls = .ok ps →
      ps.length = ls.length ∧ ∀ j (hj : j < ls.length) (hj' : j < ps.length),
        to_predicate issub (ls.get ⟨j, hj⟩) = .ok (ps.get ⟨j, hj'⟩)
  | [], ps, h => by
    injection h with h'
    subst h'
    exact ⟨rfl, fun j hj _ => absurd hj (by simp)⟩
  | l :: ls, ps, h => by
    cases hl : to_predicate issub l with
    | error e =>
      simp only [to_predicates, hl] at h
      exact Except.noConfusion h
    | ok p =>
      cases hls : to_predicates issub ls with
      | error e =>
        simp only [to_predicates, hl, hls] at h
        exact Except.noConfusion h
      | ok ps' =>
        simp only [to_predicates, hl, hls] at h
        injection h with h'
        subst h'
        rcases to_predicates_ok_spec issub ls ps' hls with ⟨hlen, hget⟩
        refine ⟨by simp [hlen], ?_⟩
        intro j hj hj'
        cases j with
        | zero => exact hl
        | succ k =>
          exact hget k (by simpa using hj) (by simpa using hj')

end Lemmas

section Claims

variable {Kind : Type}

/-- Claim C1: for every ordered flat state and ordered literal list, split
processes pairs in the collection's order and gives each pair to the first
group (in literal order) whose compiled predicate returns true, evaluating
no later predicate for that pair: each output group is the order-preserving
sublist of the state whose first matching predicate index is that group's
index, and the first-match index is characterized by its predicate being
true while every earlier predicate is false. -/
theorem split_first_match_wins (issub : Kind → Kind → Bool)
    (filters : List (Literal Kind)) (state : List (Path × Entry Kind))
    (preds : List (Predicate Kind)) (gs : List (List (Path × Entry Kind)))
    (hc : to_predicates issub filters = .ok preds)
    (hs : split issub filters state = .ok gs) :
    gs.length = preds.length ∧
    (∀ j (hj : j < gs.length),
      gs.get ⟨j, hj⟩ = state.filter (fun pv => firstMatchIdx preds pv.1 pv.2 == some j)) ∧
    (∀ (path : Path) (value : Entry Kind) (i : Nat),
      firstMatchIdx preds path value = some i ↔
        ∃ h : i < preds.length, (preds.get ⟨i, h⟩) path value = true ∧
          ∀ q ∈ preds.take i, q path value = false) := by
  have hg := split_ok_groups hc hs
  subst hg
  exact ⟨length_groupsOf preds state,
    fun j hj => get_groupsOf hj,
    fun path value i => firstMatchIdx_spec preds path value i⟩

/-- Claim C2: when the compiled predicates are collectively exhaustive on
the state and locations are unique, split succeeds, every location lands in
exactly one output group, the groups are pairwise disjoint by location, and
their union is exactly the input state. -/
theorem split_exhaustive_partitions (issub : Kind → Kind → Bool)
    (filters : List (Literal Kind)) (state : List (Path × Entry Kind))
    (preds : List (Predicate Kind))
    (hc : to_predicates issub filters = .ok preds)
    (hnodup : (state.map Prod.fst).Nodup)
    (hexh : ∀ pv ∈ state, ∃ q ∈ preds, q pv.1 pv.2 = true) :
    ∃ gs, split issub filters state = .ok gs ∧
      (∀ l ∈ state.map Prod.fst,
        ∃! j : Nat, ∃ hj : j < gs.length, l ∈ ((gs.get ⟨j, hj⟩).map Prod.fst)) ∧
      (∀ pv : Path × Entry Kind, (∃ g ∈ gs, pv ∈ g) ↔ pv ∈ state) ∧
      (∀ j k (hj : j < gs.length) (hk : k < gs.length), j ≠ k →
        ∀ l : Path, l ∈ ((gs.get ⟨j, hj⟩).map Prod.fst) →
          l ∉ ((gs.get ⟨k, hk⟩).map Prod.fst)) := by
  have hmat : ∀ pv ∈ state, (firstMatchIdx preds pv.1 pv.2).isSome = true := by
    intro pv hpv
    exact (firstMatchIdx_isSome_iff preds pv.1 pv.2).2 (hexh pv hpv)
  refine ⟨groupsOf preds state, split_ok_of_matched hc hmat, ?_, ?_, ?_⟩
  · intro l hl
    rcases List.mem_map.1 hl with ⟨⟨p, v⟩, hpv, hfst⟩
    have hp : p = l := hfst
    rcases Option.isSome_iff_exists.1 (hmat (p, v) hpv) with ⟨j, hj⟩
    have hjlt : j < (groupsOf preds state).length := by
      rw [length_groupsOf]
      exact firstMatchIdx_lt_length hj
    refine ⟨j, ⟨hjlt, ?_⟩, ?_⟩
    · exact List.mem_map.2 ⟨(p, v), (mem_groupsOf hjlt _).2 ⟨hpv, hj⟩, hp⟩
    · rintro k ⟨hk, hmemk⟩
      exact groupsOf_loc_unique hnodup hk hjlt hmemk
        (List.mem_map.2 ⟨(p, v), (mem_groupsOf hjlt _).2 ⟨hpv, hj⟩, hp⟩)
  · intro pv
    constructor
    · rintro ⟨g, hg, hpvg⟩
      rcases List.mem_iff_get.1 hg with ⟨⟨j, hjl⟩, rfl⟩
      exact ((mem_groupsOf hjl pv).1 hpvg).1
    · intro hpv
      rcases Option.isSome_iff_exists.1 (hmat pv hpv) with ⟨j, hj⟩
      have hjlt : j < (groupsOf preds state).length := by
        rw [length_groupsOf]
        exact firstMatchIdx_lt_length hj
      exact ⟨(groupsOf preds state).get ⟨j, hjlt⟩, List.get_mem _ _ _,
        (mem_groupsOf hjlt pv).2 ⟨hpv, hj⟩⟩
  · intro j k hj hk hne l hlj hlk
    exact hne (groupsOf_loc_unique hnodup hj hk hlj hlk)

/-- Claim C3: when some pair of the state matches no compiled predicate,
split fails with an unmatched-entry error carrying the location and entry
of the first such pair (every pair before it matched some predicate), and
no group list is returned. -/
theorem split_unmatched_fails (issub : Kind → Kind → Bool)
    (filters : List (Literal Kind)) (state : List (Path × Entry Kind))
    (preds : List (Predicate Kind)) (path : Path) (value : Entry Kind)
    (hc : to_predicates issub filters = .ok preds)
    (hmem : (path, value) ∈ state)
    (hnm : ∀ q ∈ preds, q path value = false) :
    ∃ p₀ v₀, split issub filters state = .error (SplitError.unmatchedEntry p₀ v₀) ∧
      (p₀, v₀) ∈ state ∧ (∀ q ∈ preds, q p₀ v₀ = false) ∧
      ∃ pre post, state = pre ++ (p₀, v₀) :: post ∧
        ∀ pv ∈ pre, ∃ q ∈ preds, q pv.1 pv.2 = true := by
  have hnone : firstMatchIdx preds path value = none :=
    (firstMatchIdx_eq_none_iff preds path value).2 hnm
  rcases splitLoop_err_of_unmatched preds state (preds.map fun _ => [])
      ⟨(path, value), hmem, hnone⟩ with ⟨pre, p₀, v₀, post, heq, hpre, hnone₀, hrun⟩
  refine ⟨p₀, v₀, ?_, ?_, ?_, pre, post, heq, ?_⟩
  · simp only [split, hc]
    exact hrun
  · rw [heq]
    exact List.mem_append.2 (Or.inr (List.mem_cons_self _ _))
  · exact (firstMatchIdx_eq_none_iff preds p₀ v₀).1 hnone₀
  · intro pv hpv
    exact (firstMatchIdx_isSome_iff preds pv.1 pv.2).1 (hpre pv hpv)

/-- Claim C9: whenever split returns groups (no exhaustiveness assumed) and
locations are unique in the input, the output groups are pairwise disjoint:
no location appears in two distinct groups, because assignment stops at the
first matching predicate. -/
theorem split_groups_pairwise_disjoint (issub : Kind → Kind → Bool)
    (filters : List (Literal Kind)) (state : List (Path × Entry Kind))
    (gs : List (List (Path × Entry Kind)))
    (hnodup : (state.map Prod.fst).Nodup)
    (hs : split issub filters state = .ok gs) :
    ∀ j k (hj : j < gs.length) (hk : k < gs.length), j ≠ k →
      ∀ l : Path, l ∈ ((gs.get ⟨j, hj⟩).map Prod.fst) →
        l ∉ ((gs.get ⟨k, hk⟩).map Prod.fst) := by
  rcases split_ok_imp_compiled hs with ⟨preds, hc⟩
  have hg := split_ok_groups hc hs
  subst hg
  intro j k hj hk hne l hlj hlk
  exact hne (groupsOf_loc_unique hnodup hj hk hlj hlk)

/-- Inversion for compiling a list literal: when compilation of anyOf
succeeds, every inner literal compiled and the result is the Any
combinator over the inner predicates. -/
theorem to_predicate_anyOf_ok {issub : Kind → Kind → Bool} {ls : List (Literal Kind)}
    {q : Predicate Kind} (hc : to_predicate issub (Literal.anyOf ls) = .ok q) :
    ∃ ps, to_predicates issub ls = .ok ps ∧
      q = fun path value => ps.any (fun r => r path value) := by
  cases hps : to_predicates issub ls with
  | error e =>
    simp only [to_predicate, hps] at hc
    exact Except.noConfusion hc
  | ok ps =>
    simp only [to_predicate, hps] at hc
    exact ⟨ps, rfl, (Except.ok.inj hc).symm⟩

/-- Claim C4: compiling a kind descriptor K yields a predicate that is true
on (path, value) iff the value's own kind equals or is a sub-kind of K or
the value exposes a type attribute equal to or a sub-kind of K; in
particular for every sub-kind of K it matches entries of that sub-kind. -/
theorem compile_kind_semantics (issub : Kind → Kind → Bool) (K : Kind)
    (q : Predicate Kind) (hc : to_predicate issub (Literal.ofType K) = .ok q) :
    (∀ (path : Path) (value : Entry Kind),
      q path value = true ↔
        (issub value.cls K = true ∨ ∃ t, value.typeAttr = some t ∧ issub t K = true)) ∧
    (∀ K', issub K' K = true →
      ∀ (path : Path) (value : Entry Kind), value.cls = K' → q path value = true) := by
  simp only [to_predicate] at hc
  have hq : q = OfType issub K := (Except.ok.inj hc).symm
  subst hq
  constructor
  · intro path value
    unfold OfType
    cases hattr : value.typeAttr with
    | none => simp [hattr]
    | some t => simp [hattr]
  · intro K' hK' path value hcls
    unfold OfType
    rw [hcls, hK']
    simp

/-- Claim C10: the kind predicate is total on entries without the optional
type attribute: on an entry that is not an instance of the requested kind
and exposes no type attribute it returns false rather than failing. -/
theorem of_type_total_without_kind_attr (issub : Kind → Kind → Bool) (K : Kind)
    (q : Predicate Kind) (hc : to_predicate issub (Literal.ofType K) = .ok q)
    (path : Path) (value : Entry Kind)
    (hattr : value.typeAttr = none) (hcls : issub value.cls K = false) :
    q path value = false := by
  simp only [to_predicate] at hc
  have hq : q = OfType issub K := (Except.ok.inj hc).symm
  subst hq
  simp [OfType, hattr, hcls]

/-- Claim C6: compiling a non-empty list of literals yields the logical OR
of the individually compiled predicates: every inner literal compiles, and
the list's predicate is true on a pair iff some inner predicate is. -/
theorem compile_list_is_or (issub : Kind → Kind → Bool) (ls : List (Literal Kind))
    (q : Predicate Kind) (hne : ls ≠ [])
    (hc : to_predicate issub (Literal.anyOf ls) = .ok q) :
    (∀ l ∈ ls, ∃ r, to_predicate issub l = .ok r) ∧
    (∀ (path : Path) (value : Entry Kind),
      q path value = true ↔
        ∃ l ∈ ls, ∃ r, to_predicate issub l = .ok r ∧ r path value = true) := by
  rcases to_predicate_anyOf_ok hc with ⟨ps, hps, hqeq⟩
  subst hqeq
  rcases to_predicates_ok_spec issub ls ps hps with ⟨hlen, hget⟩
  constructor
  · intro l hl
    rcases List.mem_iff_get.1 hl with ⟨⟨j, hj⟩, rfl⟩
    exact ⟨ps.get ⟨j, by rw [hlen]; exact hj⟩, hget j hj _⟩
  · intro path value
    constructor
    · intro hq
      rcases List.any_eq_true.1 hq with ⟨r, hr, hrt⟩
      rcases List.mem_iff_get.1 hr with ⟨⟨j, hj'⟩, rfl⟩
      have hj : j < ls.length := by rw [← hlen]; exact hj'
      exact ⟨ls.get ⟨j, hj⟩, List.get_mem _ _ _, ps.get ⟨j, hj'⟩, hget j hj hj', hrt⟩
    · rintro ⟨l, hl, r, hlr, hrt⟩
      rcases List.mem_iff_get.1 hl with ⟨⟨j, hj⟩, rfl⟩
      have hj' : j < ps.length := by rw [hlen]; exact hj
      have hj2 := hget j hj hj'
      rw [hj2] at hlr
      have hr : r = ps.get ⟨j, hj'⟩ := (Except.ok.inj hlr).symm
      subst hr
      exact List.any_eq_true.2 ⟨ps.get ⟨j, hj'⟩, List.get_mem _ _ _, hrt⟩

/-- Claim C7: the match-all sentinel compiles to a predicate true on every
(path, value) pair and the match-none sentinel compiles to a predicate
false on every pair. -/
theorem compile_sentinels (issub : Kind → Kind → Bool) :
    (∃ q : Predicate Kind, to_predicate issub Literal.everything = .ok q ∧
      ∀ (path : Path) (value : Entry Kind), q path value = true) ∧
    (∃ q : Predicate Kind, to_predicate issub Literal.nothing = .ok q ∧
      ∀ (path : Path) (value : Entry Kind), q path value = false) :=
  ⟨⟨fun _ _ => true, rfl, fun _ _ => rfl⟩, ⟨fun _ _ => false, rfl, fun _ _ => rfl⟩⟩

/-- Claim C8: a literal list containing an unrecognized literal form makes
split fail with InvalidFilterLiteral for every state whatsoever: all
literals are compiled before the first entry is examined, so the error is
raised before any pair is evaluated or assigned. -/
theorem split_invalid_literal_fails_fast (issub : Kind → Kind → Bool)
    (filters : List (Literal Kind)) (h : Literal.unrecognized ∈ filters)
    (state : List (Path × Entry Kind)) :
    split issub filters state = .error SplitError.invalidFilterLiteral := by
  simp only [split, to_predicates_error_of_unrecognized h]

end Claims

section Examples

/-- Claim C5: with a single entry of kind SpecialParam (kind 1, deriving
from Param, kind 0), split with [Param, SpecialParam] puts the entry in
group 0 (the Param group) and leaves group 1 (the SpecialParam group)
empty, while split with [SpecialParam, Param] puts it in group 0 (the
SpecialParam group) and leaves group 1 (the Param group) empty. -/
theorem split_order_sensitivity :
    split issubD [Literal.ofType 0, Literal.ofType 1] [(["b"], entrySP)]
        = .ok [[(["b"], entrySP)], []] ∧
    split issubD [Literal.ofType 1, Literal.ofType 0] [(["b"], entrySP)]
        = .ok [[(["b"], entrySP)], []] :=
  ⟨rfl, rfl⟩

/-- Witness for C1 at the Bar example. -/
theorem split_first_match_wins_witness :
    gsD.length = predsD.length ∧
    (∀ j (hj : j < gsD.length),
      gsD.get ⟨j, hj⟩ = stateD.filter (fun pv => firstMatchIdx predsD pv.1 pv.2 == some j)) ∧
    (∀ (path : Path) (value : Entry Nat) (i : Nat),
      firstMatchIdx predsD path value = some i ↔
        ∃ h : i < predsD.length, (predsD.get ⟨i, h⟩) path value = true ∧
          ∀ q ∈ predsD.take i, q path value = false) :=
  split_first_match_wins issubD filtersD stateD predsD gsD rfl rfl

/-- Witness for C2 at the Bar example. -/
theorem split_exhaustive_partitions_witness :
    ∃ gs, split issubD filtersD stateD = .ok gs ∧
      (∀ l ∈ stateD.map Prod.fst,
        ∃! j : Nat, ∃ hj : j < gs.length, l ∈ ((gs.get ⟨j, hj⟩).map Prod.fst)) ∧
      (∀ pv : Path × Entry Nat, (∃ g ∈ gs, pv ∈ g) ↔ pv ∈ stateD) ∧
      (∀ j k (hj : j < gs.length) (hk : k < gs.length), j ≠ k →
        ∀ l : Path, l ∈ ((gs.get ⟨j, hj⟩).map Prod.fst) →
          l ∉ ((gs.get ⟨k, hk⟩).map Prod.fst)) :=
  split_exhaustive_partitions issubD filtersD stateD predsD rfl
    (by decide)
    (by
      intro pv hpv
      rcases List.mem_cons.1 hpv with rfl | hpv'
      · exact ⟨OfType issubD 0, List.mem_cons_self _ _, rfl⟩
      · rcases List.mem_cons.1 hpv' with rfl | h
        · exact ⟨OfType issubD 0, List.mem_cons_self _ _, rfl⟩
        · cases h)

/-- Witness for C3: a BatchStat-like entry matches no filter in [Param]. -/
theorem split_unmatched_fails_witness :
    ∃ p₀ v₀, split issubD [Literal.ofType 0] [(["x"], entryB)]
        = .error (SplitError.unmatchedEntry p₀ v₀) ∧
      (p₀, v₀) ∈ [(["x"], entryB)] ∧
      (∀ q ∈ [OfType issubD 0], q p₀ v₀ = false) ∧
      ∃ pre post, [(["x"], entryB)] = pre ++ (p₀, v₀) :: post ∧
        ∀ pv ∈ pre, ∃ q ∈ [OfType issubD 0], q pv.1 pv.2 = true :=
  split_unmatched_fails issubD [Literal.ofType 0] [(["x"], entryB)]
    [OfType issubD 0] ["x"] entryB rfl (List.mem_cons_self _ _)
    (by
      intro q hq
      rcases List.mem_cons.1 hq with rfl | h
      · rfl
      · cases h)

/-- Witness for C4 at K = Param. -/
theorem compile_kind_semantics_witness :
    (∀ (path : Path) (value : Entry Nat),
      OfType issubD 0 path value = true ↔
        (issubD value.cls 0 = true ∨ ∃ t, value.typeAttr = some t ∧ issubD t 0 = true)) ∧
    (∀ K', issubD K' 0 = true →
      ∀ (path : Path) (value : Entry Nat), value.cls = K' →
        OfType issubD 0 path value = true) :=
  compile_kind_semantics issubD 0 (OfType issubD 0) rfl

/-- Witness for C6 at the notebook's (Param, dropout) example. -/
theorem compile_list_is_or_witness :
    (∀ l ∈ [Literal.ofType 0, Literal.withTag "dropout"],
      ∃ r, to_predicate issubD l = .ok r) ∧
    (∀ (path : Path) (value : Entry Nat),
      (fun path value =>
        [OfType issubD 0, WithTag "dropout"].any (fun r => r path value)) path value = true ↔
        ∃ l ∈ [Literal.ofType 0, Literal.withTag "dropout"],
          ∃ r, to_predicate issubD l = .ok r ∧ r path value = true) :=
  compile_list_is_or issubD [Literal.ofType 0, Literal.withTag "dropout"] _
    (List.cons_ne_nil _ _) rfl

/-- Witness for C8: an unrecognized literal aborts split on a nonempty
state. -/
theorem split_invalid_literal_fails_fast_witness :
    split issubD [Literal.ofType 0, Literal.unrecognized] [(["a"], entryP)]
      = .error SplitError.invalidFilterLiteral :=
  split_invalid_literal_fails_fast issubD [Literal.ofType 0, Literal.unrecognized]
    (by simp) [(["a"], entryP)]

/-- Witness for C9 at the Bar example: location a lies in group 0, so it
cannot also lie in group 1. -/
theorem split_groups_pairwise_disjoint_witness :
    ["a"] ∉ ((gsD.get ⟨1, by decide⟩).map Prod.fst) :=
  split_groups_pairwise_disjoint issubD filtersD stateD gsD (by decide) rfl
    0 1 (by decide) (by decide) (by decide) ["a"] (by decide)

/-- Witness for C10 at a BatchStat-like entry. -/
theorem of_type_total_without_kind_attr_witness :
    OfType issubD 0 ["x"] entryB = false :=
  of_type_total_without_kind_attr issubD 0 (OfType issubD 0) rfl ["x"] entryB rfl rfl

end Examples

end FlaxFilterlib
